import Mathlib

/-!
Shallow embedding of `src/update.py` (COVID-19 bulletin scraper).

Strings are modelled as `List Char` (`Str`) and every function is written by
structural recursion (or explicit fuel) so that all definitions evaluate
inside the kernel.  Python `dict`s are modelled as insertion-ordered
association lists with Python's update-in-place / append-at-end semantics.
Python `datetime` values are modelled by the record `DT` (year, month, day,
hour, minute); `datetime.strptime` for the four concrete format strings used
by the program is embedded directly, including its validation rules.
-/

namespace Covid

abbrev Str := List Char

/-- Whitespace characters recognised by Python `str.strip()` and by the
whitespace directives of `re` on ASCII text. -/
def pyIsSpace (c : Char) : Bool :=
  c = ' ' || c = '\t' || c = '\n' || c = '\x0b' || c = '\x0c' || c = '\r'

def isDigitCh (c : Char) : Bool := '0' ≤ c && c ≤ '9'

def digitVal (c : Char) : Nat := c.toNat - 48

/-- ASCII lower-casing, as `str.lower()` acts on ASCII input. -/
def pyLower (c : Char) : Char :=
  if 'A' ≤ c && c ≤ 'Z' then Char.ofNat (c.toNat + 32) else c

def lowerStr (s : Str) : Str := s.map pyLower

/-- Exact-prefix test on `List Char`. -/
def isPre : Str → Str → Bool
  | [], _ => true
  | _ :: _, [] => false
  | a :: as, b :: bs => if a = b then isPre as bs else false

/-- Python `pat in s` (substring containment). -/
def containsSub (pat : Str) (s : Str) : Bool :=
  isPre pat s ||
    match s with
    | [] => false
    | _ :: t => containsSub pat t

/-- Python `s.replace(pat, '')` for a non-empty `pat`: remove every
(non-overlapping, leftmost-first) occurrence.  Fuel is the length of `s`;
each recursive call consumes at least one character. -/
def replaceDropAux : Nat → Str → Str → Str
  | 0, _, s => s
  | _ + 1, _, [] => []
  | fuel + 1, pat, c :: rest =>
    if isPre pat (c :: rest) && pat.length ≠ 0 then
      replaceDropAux fuel pat ((c :: rest).drop pat.length)
    else
      c :: replaceDropAux fuel pat rest

def replaceDrop (pat s : Str) : Str := replaceDropAux s.length pat s

/-- Python `s.strip()`. -/
def pyStrip (s : Str) : Str :=
  ((s.dropWhile pyIsSpace).reverse.dropWhile pyIsSpace).reverse

/-- `re.sub(' +', ' ', s)`: collapse every run of spaces to one space. -/
def collapseSpaces : Str → Str
  | [] => []
  | [c] => [c]
  | c1 :: c2 :: rest =>
    if c1 = ' ' && c2 = ' ' then collapseSpaces (c2 :: rest)
    else c1 :: collapseSpaces (c2 :: rest)

/-- Lexicographic (code-point) strict order on strings, as Python `<`. -/
def strLtB : Str → Str → Bool
  | [], [] => false
  | [], _ :: _ => true
  | _ :: _, [] => false
  | a :: as, b :: bs =>
    if a < b then true else if a = b then strLtB as bs else false

def strLeB (a b : Str) : Bool := strLtB a b || a = b

/-- Stable insertion used by the model of Python `list.sort()`. -/
def insSorted (x : Str) : List Str → List Str
  | [] => [x]
  | y :: ys => if strLeB x y then x :: y :: ys else y :: insSorted x ys

/-- Model of Python `list.sort()` on strings (insertion sort). -/
def sortStr (l : List Str) : List Str := l.foldr insSorted []

/-- Membership test on a list of strings (Python `x in list` / `x in dict`). -/
def lmem (x : Str) : List Str → Bool
  | [] => false
  | y :: ys => if y = x then true else lmem x ys

/-! ### Python `datetime` values -/

/-- A Python `datetime` as used by the program: the script only ever sets
year, month, day, hour and minute (seconds and microseconds stay zero). -/
structure DT where
  year : Nat
  month : Nat
  day : Nat
  hour : Nat
  minute : Nat
deriving DecidableEq, Repr

/-- `datetime.min` (year 1, January 1st, midnight). -/
def dtMin : DT := ⟨1, 1, 1, 0, 0⟩

/-- Python `datetime` comparison: lexicographic on the field tuple. -/
def dtLt (a b : DT) : Bool :=
  a.year < b.year || (a.year = b.year &&
    (a.month < b.month || (a.month = b.month &&
      (a.day < b.day || (a.day = b.day &&
        (a.hour < b.hour || (a.hour = b.hour && a.minute < b.minute)))))))

def dtLe (a b : DT) : Bool := dtLt a b || a = b

def isLeapYear (y : Nat) : Bool := y % 4 = 0 && (y % 100 ≠ 0 || y % 400 = 0)

def daysInMonth (y m : Nat) : Nat :=
  if m = 2 then (if isLeapYear y then 29 else 28)
  else if m = 4 || m = 6 || m = 9 || m = 11 then 30
  else 31

/-- The `datetime(year, month, day, hour, minute)` constructor, including its
range validation (`MINYEAR = 1`, `MAXYEAR = 9999`). -/
def mkDatetime (y m d h mi : Nat) : Option DT :=
  if 1 ≤ y && y ≤ 9999 && 1 ≤ m && m ≤ 12 && 1 ≤ d && d ≤ daysInMonth y m
      && h ≤ 23 && mi ≤ 59 then
    some ⟨y, m, d, h, mi⟩
  else
    none

/-! ### `strptime` for the two label formats

`datetime.strptime(text, '%A %B %d %Y %I%p')` / `'%A %B %d %I%p'`.
A space in the format matches a non-empty whitespace run, the directives
themselves never match whitespace, and the whole string must be consumed;
so a successful match is exactly: no leading/trailing whitespace, and the
whitespace-separated tokens match the directives one by one.  Name matching
(`%A`, `%B`, `%p`) is case-insensitive. -/

/-- Whitespace-split worker: `acc` holds the current token reversed. -/
def wsTokensGo : Str → Str → List Str
  | acc, [] => if acc = [] then [] else [acc.reverse]
  | acc, c :: rest =>
    if pyIsSpace c then
      if acc = [] then wsTokensGo [] rest
      else acc.reverse :: wsTokensGo [] rest
    else
      wsTokensGo (c :: acc) rest

/-- Split into non-empty whitespace-separated tokens. -/
def wsTokens (s : Str) : List Str := wsTokensGo [] s

/-- No leading and no trailing whitespace. -/
def noEdgeWs (s : Str) : Bool :=
  (match s.head? with | none => true | some c => !pyIsSpace c) &&
  (match s.getLast? with | none => true | some c => !pyIsSpace c)

def weekdayNames : List Str :=
  ["monday".data, "tuesday".data, "wednesday".data, "thursday".data,
   "friday".data, "saturday".data, "sunday".data]

def monthNames : List Str :=
  ["january".data, "february".data, "march".data, "april".data, "may".data,
   "june".data, "july".data, "august".data, "september".data,
   "october".data, "november".data, "december".data]

def idxOf (x : Str) : List Str → Option Nat
  | [] => none
  | y :: ys => if y = x then some 0 else (idxOf x ys).map (· + 1)

/-- `%A`: a full weekday name (case-insensitive); the parsed value is unused
and not cross-checked against the date by Python. -/
def matchWeekday (t : Str) : Bool := lmem (lowerStr t) weekdayNames

/-- `%B`: a full month name (case-insensitive), yielding the month number. -/
def matchMonth (t : Str) : Option Nat :=
  (idxOf (lowerStr t) monthNames).map (· + 1)

/-- `%d` as a whole token: regex `3[01]|[12]\d|0[1-9]|[1-9]`. -/
def matchDay : Str → Option Nat
  | [c] => if '1' ≤ c && c ≤ '9' then some (digitVal c) else none
  | [c1, c2] =>
    if isDigitCh c1 && isDigitCh c2 then
      let v := 10 * digitVal c1 + digitVal c2
      if 1 ≤ v && v ≤ 31 then some v else none
    else none
  | _ => none

/-- `%Y` as a whole token: exactly four digits. -/
def matchYear : Str → Option Nat
  | [c1, c2, c3, c4] =>
    if isDigitCh c1 && isDigitCh c2 && isDigitCh c3 && isDigitCh c4 then
      some (1000 * digitVal c1 + 100 * digitVal c2 + 10 * digitVal c3
            + digitVal c4)
    else none
  | _ => none

/-- `%I` as a standalone digit group: regex `1[0-2]|0[1-9]|[1-9]`. -/
def matchHour12 : Str → Option Nat
  | [c] => if '1' ≤ c && c ≤ '9' then some (digitVal c) else none
  | [c1, c2] =>
    if isDigitCh c1 && isDigitCh c2 then
      let v := 10 * digitVal c1 + digitVal c2
      if 1 ≤ v && v ≤ 12 then some v else none
    else none
  | _ => none

/-- `%I%p` as a whole token: hour digits immediately followed by `am`/`pm`
(case-insensitive), converted to a 24-hour value. -/
def matchHourAmpm (t : Str) : Option Nat :=
  let lt := lowerStr t
  let dp := lt.take (lt.length - 2)
  let sfx := lt.drop (lt.length - 2)
  match matchHour12 dp with
  | none => none
  | some v =>
    if sfx = "am".data then some (if v = 12 then 0 else v)
    else if sfx = "pm".data then some (if v = 12 then 12 else v + 12)
    else none

/-- `datetime.strptime(s, '%A %B %d %Y %I%p')`. -/
def strptimeLabelYear (s : Str) : Option DT :=
  if noEdgeWs s then
    match wsTokens s with
    | [wd, mon, d, y, hp] =>
      if matchWeekday wd then
        match matchMonth mon, matchDay d, matchYear y, matchHourAmpm hp with
        | some m, some dv, some yv, some hv => mkDatetime yv m dv hv 0
        | _, _, _, _ => none
      else none
    | _ => none
  else none

/-- `datetime.strptime(s, '%A %B %d %I%p')` (year defaults to 1900). -/
def strptimeLabelNoYear (s : Str) : Option DT :=
  if noEdgeWs s then
    match wsTokens s with
    | [wd, mon, d, hp] =>
      if matchWeekday wd then
        match matchMonth mon, matchDay d, matchHourAmpm hp with
        | some m, some dv, some hv => mkDatetime 1900 m dv hv 0
        | _, _, _ => none
      else none
    | _ => none
  else none

/-- `dt.replace(year=y)`, which re-validates the resulting date. -/
def pyReplaceYear (d : DT) (y : Nat) : Option DT :=
  mkDatetime y d.month d.day d.hour d.minute

/-! ### `strftime` renderings -/

def digitCh (n : Nat) : Char := Char.ofNat (48 + n)

def pad2 (n : Nat) : Str := [digitCh (n / 10 % 10), digitCh (n % 10)]

def pad4 (n : Nat) : Str :=
  [digitCh (n / 1000 % 10), digitCh (n / 100 % 10), digitCh (n / 10 % 10),
   digitCh (n % 10)]

/-- `dt.strftime('%Y-%m-%d_%H%M')` (`FILE_DT_FMT`), the canonical encoding. -/
def fmtFile (d : DT) : Str :=
  pad4 d.year ++ '-' :: pad2 d.month ++ '-' :: pad2 d.day
    ++ '_' :: (pad2 d.hour ++ pad2 d.minute)

/-- `dt.strftime('%Y-%m-%d %H:%M')` (`SHEET_DT_FMT`). -/
def fmtSheet (d : DT) : Str :=
  pad4 d.year ++ '-' :: pad2 d.month ++ '-' :: pad2 d.day
    ++ ' ' :: (pad2 d.hour ++ ':' :: pad2 d.minute)

/-! ### `strptime` for the delimiter-based formats

`'%Y-%m-%d_%H%M'` (cache file names) and `'%Y-%m-%d %H:%M'` (sheet cells).
Numeric directives are regex alternations tried in order; because each of
`%m`, `%d`, `%H` is followed by a delimiter its token runs exactly to that
delimiter, and for the trailing `%H%M` (resp. `%M$`) the alternation
backtracking is spelled out explicitly. -/

/-- The part of `s` before the first occurrence of `c`, and the part after;
`none` when `c` does not occur. -/
def splitOnce (c : Char) : Str → Option (Str × Str)
  | [] => none
  | x :: xs =>
    if x = c then some ([], xs)
    else (splitOnce c xs).map (fun p => (x :: p.1, p.2))

/-- `%m` / `%I` digit group as a whole token: regex `1[0-2]|0[1-9]|[1-9]`. -/
def matchTok12 : Str → Option Nat
  | [c] => if '1' ≤ c && c ≤ '9' then some (digitVal c) else none
  | [c1, c2] =>
    if isDigitCh c1 && isDigitCh c2 then
      let v := 10 * digitVal c1 + digitVal c2
      if 1 ≤ v && v ≤ 12 then some v else none
    else none
  | _ => none

/-- `%M` immediately followed by end of string: regex `([0-5]\d|\d)$`. -/
def matchMinEnd : Str → Option Nat
  | [a] => if isDigitCh a then some (digitVal a) else none
  | [a, b] =>
    if '0' ≤ a && a ≤ '5' && isDigitCh b then
      some (10 * digitVal a + digitVal b)
    else none
  | _ => none

/-- `%H%M$`: `%H` is `2[0-3]|[0-1]\d|\d`; the two-digit alternatives are
tried first and the engine backtracks to the one-digit one. -/
def matchHMEnd (s : Str) : Option (Nat × Nat) :=
  let two : Option (Nat × Nat) :=
    match s with
    | a :: b :: rest =>
      if (a = '2' && '0' ≤ b && b ≤ '3') ||
          ((a = '0' || a = '1') && isDigitCh b) then
        (matchMinEnd rest).map (fun mi => (10 * digitVal a + digitVal b, mi))
      else none
    | _ => none
  match two with
  | some r => some r
  | none =>
    match s with
    | a :: rest =>
      if isDigitCh a then (matchMinEnd rest).map (fun mi => (digitVal a, mi))
      else none
    | _ => none

/-- `%H` as a token running up to a delimiter: `2[0-3]|[0-1]\d|\d`. -/
def matchH24 : Str → Option Nat
  | [a] => if isDigitCh a then some (digitVal a) else none
  | [a, b] =>
    if (a = '2' && '0' ≤ b && b ≤ '3') || ((a = '0' || a = '1') && isDigitCh b)
    then some (10 * digitVal a + digitVal b)
    else none
  | _ => none

/-- `datetime.strptime(s, '%Y-%m-%d_%H%M')` (`FILE_DT_FMT`). -/
def parseFileName (s : Str) : Option DT :=
  match s with
  | c1 :: c2 :: c3 :: c4 :: '-' :: rest =>
    if isDigitCh c1 && isDigitCh c2 && isDigitCh c3 && isDigitCh c4 then
      let y := 1000 * digitVal c1 + 100 * digitVal c2 + 10 * digitVal c3
                 + digitVal c4
      match splitOnce '-' rest with
      | none => none
      | some (mTok, rest2) =>
        match matchTok12 mTok with
        | none => none
        | some m =>
          match splitOnce '_' rest2 with
          | none => none
          | some (dTok, rest3) =>
            match matchDay dTok with
            | none => none
            | some d =>
              match matchHMEnd rest3 with
              | none => none
              | some (h, mi) => mkDatetime y m d h mi
    else none
  | _ => none

/-- `datetime.strptime(s, '%Y-%m-%d %H:%M')` (`SHEET_DT_FMT`). -/
def parseSheetCell (s : Str) : Option DT :=
  match s with
  | c1 :: c2 :: c3 :: c4 :: '-' :: rest =>
    if isDigitCh c1 && isDigitCh c2 && isDigitCh c3 && isDigitCh c4 then
      let y := 1000 * digitVal c1 + 100 * digitVal c2 + 10 * digitVal c3
                 + digitVal c4
      match splitOnce '-' rest with
      | none => none
      | some (mTok, rest2) =>
        match matchTok12 mTok with
        | none => none
        | some m =>
          let dTok := rest2.takeWhile (fun c => !pyIsSpace c)
          let after := rest2.drop dTok.length
          match matchDay dTok with
          | none => none
          | some d =>
            match after with
            | [] => none
            | _ :: _ =>
              let rest3 := after.dropWhile pyIsSpace
              match splitOnce ':' rest3 with
              | none => none
              | some (hTok, rest4) =>
                match matchH24 hTok with
                | none => none
                | some h =>
                  match matchMinEnd rest4 with
                  | none => none
                  | some mi => mkDatetime y m d h mi
    else none
  | _ => none

/-! ### The working map (`links`): an insertion-ordered Python dict -/

abbrev SMap := List (Str × Str)

/-- `d[k] = v`: update in place when the key exists, else append. -/
def dinsert : SMap → Str → Str → SMap
  | [], k, v => [(k, v)]
  | (k', v') :: rest, k, v =>
    if k' = k then (k, v) :: rest else (k', v') :: dinsert rest k v

/-- `d.get(k)` / `d[k]` lookup. -/
def dget : SMap → Str → Option Str
  | [], _ => none
  | (k', v') :: rest, k => if k' = k then some v' else dget rest k

/-- `del d[k]` (the map never holds duplicate keys). -/
def ddel : SMap → Str → SMap
  | [], _ => []
  | (k', v') :: rest, k =>
    if k' = k then ddel rest k else (k', v') :: ddel rest k

/-- `list(d.keys())`, in insertion order. -/
def dkeys (m : SMap) : List Str := m.map (·.1)

/-! ### `get_links` -/

def DOMAIN : Str := "https://www2.monroecounty.gov".data

def HREF_ROOT : Str := "/files/health/coronavirus/".data

/-- Label normalisation inside the scan loop: `a.text.lower()`, then
non-ASCII characters to spaces, then `string.punctuation` characters to
spaces, then space runs collapsed. -/
def isPunct (c : Char) : Bool :=
  (33 ≤ c.toNat && c.toNat ≤ 47) || (58 ≤ c.toNat && c.toNat ≤ 64) ||
  (91 ≤ c.toNat && c.toNat ≤ 96) || (123 ≤ c.toNat && c.toNat ≤ 126)

def normalizeLabel (t : Str) : Str :=
  collapseSpaces
    (((t.map pyLower).map (fun c => if 128 ≤ c.toNat then ' ' else c)).map
      (fun c => if isPunct c then ' ' else c))

/-- One iteration of the scan loop of `get_links`: anchors whose `href` does
not match `HREF_ROOT` are not yielded by `find_all` at all; labels matching
the exclusion pattern are skipped; relative hrefs are resolved against
`DOMAIN`; the entry is stored keyed by the normalized label (a verbatim
duplicate label overwrites the earlier entry). -/
def linkStep (m : SMap) (a : Str × Str) : SMap :=
  if containsSub HREF_ROOT a.2 then
    let text := normalizeLabel a.1
    if containsSub "statement".data text || containsSub "zip code".data text
    then m
    else
      let href := if isPre ['/'] a.2 then DOMAIN ++ a.2 else a.2
      dinsert m text href
  else m

/-- The first loop of `get_links`. -/
def getLinksRaw (anchors : List (Str × Str)) : SMap :=
  anchors.foldl linkStep []

/-- Error-propagating fold, for loops whose body can `sys.exit` / raise. -/
def foldE (f : SMap → Str → Except String SMap) :
    SMap → List Str → Except String SMap
  | m, [] => .ok m
  | m, k :: ks =>
    match f m k with
    | .error e => .error e
    | .ok m' => foldE f m' ks

/-- One iteration of the correction loop: for a key containing `corrected`,
compute `text.replace('corrected', '').strip()`; when that base label is a
key, give it the corrected entry's URL and delete the corrected key,
otherwise `sys.exit("ERROR: uncorrected link not found")`. -/
def correctionStep (m : SMap) (text : Str) : Except String SMap :=
  if containsSub "corrected".data text then
    match dget m text with
    | none => .error "KeyError"
    | some url =>
      let uncorrected := pyStrip (replaceDrop "corrected".data text)
      if (dget m uncorrected).isSome then
        .ok (ddel (dinsert m uncorrected url) text)
      else
        .error "ERROR: uncorrected link not found"
  else .ok m

/-- The datetime conversion applied to one key by the third loop of
`get_links`: branch on a `'2020'` substring, parse with the explicit-year
or the year-less format (forcing year 2020 in the latter case), and render
with `FILE_DT_FMT`. -/
def parseLabelTs (text : Str) : Option Str :=
  if containsSub "2020".data text then
    (strptimeLabelYear text).map fmtFile
  else
    match strptimeLabelNoYear text with
    | none => none
    | some d => (pyReplaceYear d 2020).map fmtFile

/-- One iteration of the datetime-conversion loop: re-key the entry by the
rendered timestamp (`links[dt] = links[text]; del links[text]`); a label
that parses under neither format raises `ValueError`. -/
def rekeyStep (m : SMap) (text : Str) : Except String SMap :=
  match dget m text with
  | none => .error "KeyError"
  | some url =>
    match parseLabelTs text with
    | none => .error "ValueError: time data does not match format"
    | some ts => .ok (ddel (dinsert m ts url) text)

/-- `get_links(soup)`, with the soup abstracted to its list of
`(label text, href)` anchors in document order. -/
def get_links (anchors : List (Str × Str)) : Except String SMap :=
  let m1 := getLinksRaw anchors
  match foldE correctionStep m1 (dkeys m1) with
  | .error e => .error e
  | .ok m2 => foldE rekeyStep m2 (dkeys m2)

/-! ### The regex engine for `search_for` and `REGEXS`

The five patterns only use: case-insensitive literals, a capturing `(\d+)`
(always group 1), `' +'`, an optional literal (`s?`, `(to)?`), a literal
alternation (`(of|are)`) and `.*` (any character except newline, greedy).
The engine enumerates each element's candidate matches in the regex's
backtracking priority order and `re.search` tries start positions left to
right, so the first overall success is exactly Python's match. -/

inductive RElem where
  | lit : Str → RElem
  | digits : RElem
  | spacePlus : RElem
  | optLit : Str → RElem
  | alts : List Str → RElem
  | dotStar : RElem
deriving DecidableEq, Repr

/-- Case-insensitive literal-prefix test (`re.IGNORECASE`). -/
def ciPre : Str → Str → Bool
  | [], _ => true
  | _ :: _, [] => false
  | a :: as, b :: bs => if pyLower a = pyLower b then ciPre as bs else false

/-- Greedy candidate list for a maximal run of length `n`: drop `n`, then
`n - 1`, …, down to `lo`. -/
def greedyDrops (lo n : Nat) (s : Str) (capture : Bool) :
    List (Str × Option Str) :=
  (List.range (n + 1 - lo)).map (fun i =>
    let k := n - i
    (s.drop k, if capture then some (s.take k) else none))

/-- The candidate `(rest-of-input, group-1 capture)` pairs of one pattern
element at the current position, in backtracking priority order. -/
def elemCands (e : RElem) (s : Str) : List (Str × Option Str) :=
  match e with
  | .lit cs => if ciPre cs s then [(s.drop cs.length, none)] else []
  | .digits =>
    let n := (s.takeWhile isDigitCh).length
    if n = 0 then [] else greedyDrops 1 n s true
  | .spacePlus =>
    let n := (s.takeWhile (· = ' ')).length
    if n = 0 then [] else greedyDrops 1 n s false
  | .optLit cs =>
    if ciPre cs s then [(s.drop cs.length, none), (s, none)] else [(s, none)]
  | .alts l =>
    l.filterMap (fun cs =>
      if ciPre cs s then some (s.drop cs.length, none) else none)
  | .dotStar =>
    let n := (s.takeWhile (· ≠ '\n')).length
    greedyDrops 0 n s false

/-- Earlier captures win (each pattern has a single capturing `(\d+)`). -/
def mergeCap (a b : Option Str) : Option Str :=
  match a with
  | some x => some x
  | none => b

/-- Backtracking matcher over a stack of candidate states.  A state is
`(remaining input, capture so far)`; when the element list is exhausted the
head state is the match.  Fuel only bounds the search tree (one unit per
visited node); `reFuel` below always suffices. -/
def matchEF : Nat → List RElem → List (Str × Option Str) →
    Option (Option Str)
  | 0, _, _ => none
  | _ + 1, _, [] => none
  | fuel + 1, es, (s, cap) :: more =>
    match es with
    | [] => some cap
    | e :: es' =>
      match matchEF fuel es'
          ((elemCands e s).map (fun p => (p.1, mergeCap cap p.2))) with
      | some r => some r
      | none => matchEF fuel es more

/-- A crude upper bound on the number of nodes the backtracking search can
visit for pattern `es` on input `s`. -/
def reFuel (es : List RElem) (s : Str) : Nat :=
  (s.length + 2) ^ (es.length + 1)

/-- Try to match pattern `es` at the start of `s`. -/
def matchAt (es : List RElem) (s : Str) : Option (Option Str) :=
  matchEF (reFuel es s) es [(s, none)]

/-- `re.search`: try every start position, leftmost first; the payload is
the group-1 capture of the match. -/
def reSearch (es : List RElem) : Str → Option (Option Str)
  | [] => matchAt es []
  | s@(_ :: t) =>
    match matchAt es s with
    | some r => some r
    | none => reSearch es t

/-- The `REGEXS` constant:
`There are (\d+) confirmed cases`,
`Deaths related to COVID-19 +(\d+) patients?`,
`(\d+) people are hospitalized`,
`(\d+) (of|are).* in ICU`,
`(\d+) people in(to)? mandatory quarantine`. -/
def REGEXS : List (List RElem) :=
  [[.lit "There are ".data, .digits, .lit " confirmed cases".data],
   [.lit "Deaths related to COVID-19".data, .spacePlus, .digits,
    .lit " patient".data, .optLit "s".data],
   [.digits, .lit " people are hospitalized".data],
   [.digits, .lit " ".data, .alts ["of".data, "are".data], .dotStar,
    .lit " in ICU".data],
   [.digits, .lit " people in".data, .optLit "to".data,
    .lit " mandatory quarantine".data]]

/-- A spreadsheet cell value: `none` is Python `None`. -/
abbrev Cell := Option Str

/-- `search_for(regex, txt)`: the group-1 capture when the pattern matches,
else the sentinel string `"n/a"`. -/
def search_for (es : List RElem) (txt : Str) : Cell :=
  match reSearch es txt with
  | none => some "n/a".data
  | some cap => cap

/-- The ordered field values extracted from one bulletin text (the inner
`for regex in REGEXS` loop). -/
def extractFields (txt : Str) : List Cell :=
  REGEXS.map (fun es => search_for es txt)

/-! ### `get_last_update`, `parse_pdfs`, `download_pdfs`, `main` -/

/-- One appended spreadsheet row. -/
abbrev Row := List Cell

/-- The row built for the bulletin with timestamp `dt` and text `txt`:
`[dt.strftime(SHEET_DT_FMT), None, value-1 … value-5]`. -/
def mkRow (dt : DT) (txt : Str) : Row :=
  some (fmtSheet dt) :: none :: extractFields txt

/-- `get_last_update`: the sheet's datetime column from row 2 downward is
abstracted to its list of rows (each a list of cells).  The last row's
first cell is parsed with `SHEET_DT_FMT`; an empty column yields
`datetime.min`. -/
def getLastUpdate (values : List (List Str)) : Except String DT :=
  match values.getLast? with
  | none => .ok dtMin
  | some row =>
    match row with
    | [] => .error "IndexError"
    | cell :: _ =>
      match parseSheetCell cell with
      | none => .error "ValueError: time data does not match format"
      | some d => .ok d

/-- `glob.glob(os.path.join(PDF_DIR, '*.pdf'))` filter on one directory
entry: a `*.pdf` suffix, and glob never matches hidden files. -/
def globPdf (f : Str) : Bool :=
  isPre ".pdf".data (f.reverse.take 4).reverse && !isPre ['.'] f

/-- The loop body of `parse_pdfs` over the sorted file list: the timestamp
is parsed from the file name (raising `ValueError` if it does not parse),
bulletins at or before `last` are skipped, and a row is built from the
bulletin's extracted text (`txts` abstracts `parse_pdf`). -/
def parsePdfsGo (txts : Str → Str) (last : DT) :
    List Str → Except String (List Row)
  | [] => .ok []
  | f :: rest =>
    match parseFileName (f.take (f.length - 4)) with
    | none => .error "ValueError: time data does not match format"
    | some dt =>
      if dtLe dt last then parsePdfsGo txts last rest
      else
        match parsePdfsGo txts last rest with
        | .error e => .error e
        | .ok rows => .ok (mkRow dt (txts f) :: rows)

/-- `parse_pdfs(pdf_dir, last_update)`: glob the cache directory (modelled
by its list of file names), sort, and run the extraction loop.  Sorting the
names equals sorting the globbed paths, which all share the `pdfs/`
prefix. -/
def parse_pdfs (files : List Str) (txts : Str → Str) (last : DT) :
    Except String (List Row) :=
  parsePdfsGo txts last (sortStr (files.filter globPdf))

/-- `download_pdfs(links)`: for each catalog entry whose derived file name
is absent, fetch the URL (aborting with `sys.exit` on failure) and add the
file to the cache directory; present files are untouched. -/
def download_pdfs (files : List Str) (fetchOk : Str → Bool) :
    SMap → Except String (List Str)
  | [] => .ok files
  | (dt, url) :: rest =>
    let name := dt ++ ".pdf".data
    if lmem name files then download_pdfs files fetchOk rest
    else if fetchOk url then download_pdfs (files ++ [name]) fetchOk rest
    else .error "ERROR: could not access file"

/-- The external world of one run: the listing's anchors, the cache
directory's initial contents, whether fetching a given URL succeeds, the
sheet's datetime column, and the text extracted from a cached bulletin. -/
structure Inputs where
  anchors : List (Str × Str)
  files0 : List Str
  fetchOk : Str → Bool
  colValues : List (List Str)
  pdfText : Str → Str

/-- `main()`: the pair is (batches appended to the sheet, outcome).  The
outcome's payload is the terminal message: the NO_OP message when nothing
is new, otherwise the append message.  The single `append_to_sheet` call
is the last step, so an aborted run appends nothing by construction. -/
def mainRun (inp : Inputs) : List (List Row) × Except String String :=
  match get_links inp.anchors with
  | .error e => ([], .error e)
  | .ok links =>
    match download_pdfs inp.files0 inp.fetchOk links with
    | .error e => ([], .error e)
    | .ok files1 =>
      match getLastUpdate inp.colValues with
      | .error e => ([], .error e)
      | .ok last =>
        match parse_pdfs files1 inp.pdfText last with
        | .error e => ([], .error e)
        | .ok info =>
          if info = [] then ([], .ok "no new information to update")
          else ([info], .ok "updating spreadsheet...")

/-! ### Auxiliary definitions used only by the verification -/

/-- Modelled from the spec's words for the correction rule (§4.1): "the
label with that word removed and whitespace collapsed".  This differs from
the source, which strips only the surrounding whitespace
(`text.replace('corrected', '').strip()`); the two agree exactly when
`corrected` sits at an end of the label. -/
def claimedBaseLabel (text : Str) : Str :=
  pyStrip (collapseSpaces (replaceDrop "corrected".data text))

/-- Every cell of the store's datetime column, parsed with
`SHEET_DT_FMT`; `none` when some row is empty or fails to parse. -/
def colParsed : List (List Str) → Option (List DT)
  | [] => some []
  | r :: rest =>
    match r with
    | [] => none
    | c :: _ =>
      match parseSheetCell c with
      | none => none
      | some d => (colParsed rest).map (d :: ·)

/-- `p` occurs as a contiguous segment of `l` (Python substring). -/
def SubSeg (p l : Str) : Prop := ∃ u v, u ++ p ++ v = l

/-! ## Lemmas about the working map -/

theorem dget_isSome_iff (m : SMap) (k : Str) :
    (dget m k).isSome = true ↔ k ∈ dkeys m := by
  induction m with
  | nil => simp [dget, dkeys]
  | cons p rest ih =>
    obtain ⟨k', v'⟩ := p
    show (if k' = k then some v' else dget rest k).isSome = true
      ↔ k ∈ k' :: dkeys rest
    by_cases h : k' = k
    · subst h; simp
    · have h' : ¬k = k' := fun hh => h hh.symm
      simp [h, h', ih, List.mem_cons]

theorem dget_none_iff (m : SMap) (k : Str) :
    dget m k = none ↔ k ∉ dkeys m := by
  rw [← dget_isSome_iff]
  cases dget m k <;> simp

theorem dget_dinsert_self (m : SMap) (k v : Str) :
    dget (dinsert m k v) k = some v := by
  induction m with
  | nil => simp [dinsert, dget]
  | cons p rest ih =>
    obtain ⟨k', v'⟩ := p
    by_cases h : k' = k <;> simp [dinsert, dget, h, ih]

theorem dkeys_dinsert_present (m : SMap) (k v : Str)
    (h : (dget m k).isSome = true) :
    dkeys (dinsert m k v) = dkeys m := by
  induction m with
  | nil => simp [dget] at h
  | cons p rest ih =>
    obtain ⟨k', v'⟩ := p
    by_cases hk : k' = k
    · simp [dinsert, dkeys, hk]
    · have h' : (dget rest k).isSome = true := by simpa [dget, hk] using h
      simp only [dinsert, if_neg hk, dkeys, List.map_cons]
      exact congrArg (List.cons k') (ih h')

theorem dkeys_dinsert_absent (m : SMap) (k v : Str)
    (h : dget m k = none) :
    dkeys (dinsert m k v) = dkeys m ++ [k] := by
  induction m with
  | nil => simp [dinsert, dkeys]
  | cons p rest ih =>
    obtain ⟨k', v'⟩ := p
    by_cases hk : k' = k
    · simp [dget, hk] at h
    · have h' : dget rest k = none := by simpa [dget, hk] using h
      simp only [dinsert, if_neg hk, dkeys, List.map_cons, List.cons_append]
      exact congrArg (List.cons k') (ih h')

theorem dkeys_ddel_sublist (m : SMap) (k : Str) :
    List.Sublist (dkeys (ddel m k)) (dkeys m) := by
  induction m with
  | nil => simp [ddel, dkeys]
  | cons p rest ih =>
    obtain ⟨k', v'⟩ := p
    by_cases hk : k' = k
    · simp only [ddel, dkeys, if_pos hk]
      exact ih.trans (List.sublist_cons_self _ _)
    · simp only [ddel, dkeys, if_neg hk, List.map_cons]
      exact ih.cons₂ k'

theorem nodup_dinsert (m : SMap) (k v : Str) (h : (dkeys m).Nodup) :
    (dkeys (dinsert m k v)).Nodup := by
  cases hg : dget m k with
  | none =>
    rw [dkeys_dinsert_absent m k v hg]
    have hk : k ∉ dkeys m := (dget_none_iff m k).mp hg
    simp [List.nodup_append, h, hk]
  | some w =>
    rw [dkeys_dinsert_present m k v (by simp [hg])]
    exact h

theorem nodup_ddel (m : SMap) (k : Str) (h : (dkeys m).Nodup) :
    (dkeys (ddel m k)).Nodup :=
  h.sublist (dkeys_ddel_sublist m k)

theorem nodup_linkStep (m : SMap) (a : Str × Str) (h : (dkeys m).Nodup) :
    (dkeys (linkStep m a)).Nodup := by
  unfold linkStep
  dsimp only
  by_cases h1 : containsSub HREF_ROOT a.2 = true
  · rw [if_pos h1]
    by_cases h2 : (containsSub "statement".data (normalizeLabel a.1)
        || containsSub "zip code".data (normalizeLabel a.1)) = true
    · rw [if_pos h2]; exact h
    · rw [if_neg h2]
      exact nodup_dinsert _ _ _ h
  · rw [if_neg h1]; exact h

theorem nodup_getLinksRawAux (l : List (Str × Str)) :
    ∀ m : SMap, (dkeys m).Nodup → (dkeys (l.foldl linkStep m)).Nodup := by
  induction l with
  | nil => intro m h; simpa using h
  | cons a rest ih =>
    intro m h
    exact ih _ (nodup_linkStep m a h)

theorem nodup_getLinksRaw (anchors : List (Str × Str)) :
    (dkeys (getLinksRaw anchors)).Nodup :=
  nodup_getLinksRawAux anchors [] (by simp [dkeys])

theorem foldE_pres (P : SMap → Prop) (f : SMap → Str → Except String SMap)
    (hf : ∀ m k m', P m → f m k = .ok m' → P m') :
    ∀ (ks : List Str) (m m' : SMap), P m → foldE f m ks = .ok m' → P m' := by
  intro ks
  induction ks with
  | nil =>
    intro m m' hm h
    simp only [foldE] at h
    cases h
    exact hm
  | cons k rest ih =>
    intro m m' hm h
    simp only [foldE] at h
    cases hstep : f m k with
    | error e => rw [hstep] at h; cases h
    | ok m1 =>
      rw [hstep] at h
      exact ih m1 m' (hf m k m1 hm hstep) h

theorem nodup_correctionStep (m : SMap) (k : Str) (m' : SMap)
    (h : (dkeys m).Nodup) (hs : correctionStep m k = .ok m') :
    (dkeys m').Nodup := by
  unfold correctionStep at hs
  by_cases hc : containsSub "corrected".data k = true
  · rw [if_pos hc] at hs
    cases hg : dget m k with
    | none => rw [hg] at hs; cases hs
    | some url =>
      rw [hg] at hs
      dsimp only at hs
      by_cases hu :
          (dget m (pyStrip (replaceDrop "corrected".data k))).isSome = true
      · rw [if_pos hu] at hs
        cases hs
        exact nodup_ddel _ _ (nodup_dinsert _ _ _ h)
      · rw [if_neg hu] at hs
        cases hs
  · rw [if_neg hc] at hs
    cases hs
    exact h

theorem nodup_rekeyStep (m : SMap) (k : Str) (m' : SMap)
    (h : (dkeys m).Nodup) (hs : rekeyStep m k = .ok m') :
    (dkeys m').Nodup := by
  unfold rekeyStep at hs
  cases hg : dget m k with
  | none => rw [hg] at hs; cases hs
  | some url =>
    rw [hg] at hs
    cases hp : parseLabelTs k with
    | none => rw [hp] at hs; cases hs
    | some ts =>
      rw [hp] at hs
      cases hs
      exact nodup_ddel _ _ (nodup_dinsert _ _ _ h)

theorem get_links_nodup (anchors : List (Str × Str)) (m : SMap)
    (h : get_links anchors = .ok m) : (dkeys m).Nodup := by
  unfold get_links at h
  dsimp only at h
  cases h2 : foldE correctionStep (getLinksRaw anchors)
      (dkeys (getLinksRaw anchors)) with
  | error e => rw [h2] at h; cases h
  | ok m2 =>
    rw [h2] at h
    have hn2 : (dkeys m2).Nodup :=
      foldE_pres _ _ nodup_correctionStep _ _ _ (nodup_getLinksRaw anchors) h2
    exact foldE_pres _ _ nodup_rekeyStep _ _ _ hn2 h

theorem boolNotTrue {b : Bool} (h : ¬b = true) : b = false := by
  cases b
  · rfl
  · exact absurd rfl h

/-! ## Lemmas about the lexicographic order and the sort -/

theorem strLtB_trans : ∀ a b c : Str, strLtB a b = true → strLtB b c = true →
    strLtB a c = true := by
  intro a
  induction a with
  | nil =>
    intro b c hab hbc
    cases b with
    | nil => simp [strLtB] at hab
    | cons y ys =>
      cases c with
      | nil => simp [strLtB] at hbc
      | cons z zs => simp [strLtB]
  | cons x xs ih =>
    intro b c hab hbc
    cases b with
    | nil => simp [strLtB] at hab
    | cons y ys =>
      cases c with
      | nil => simp [strLtB] at hbc
      | cons z zs =>
        simp only [strLtB] at hab hbc ⊢
        by_cases hxy : x < y
        · by_cases hyz : y < z
          · rw [if_pos (lt_trans hxy hyz)]
          · rw [if_neg hyz] at hbc
            by_cases hyz2 : y = z
            · subst hyz2
              rw [if_pos hxy]
            · rw [if_neg hyz2] at hbc
              cases hbc
        · rw [if_neg hxy] at hab
          by_cases hxy2 : x = y
          · subst hxy2
            rw [if_pos rfl] at hab
            by_cases hxz : x < z
            · rw [if_pos hxz]
            · rw [if_neg hxz] at hbc ⊢
              by_cases hxz2 : x = z
              · rw [if_pos hxz2] at hbc ⊢
                exact ih ys zs hab hbc
              · rw [if_neg hxz2] at hbc
                cases hbc
          · rw [if_neg hxy2] at hab
            cases hab

theorem strLtB_tri : ∀ a b : Str, strLtB a b = true ∨ a = b ∨
    strLtB b a = true := by
  intro a
  induction a with
  | nil =>
    intro b
    cases b with
    | nil => exact Or.inr (Or.inl rfl)
    | cons y ys => exact Or.inl (by simp [strLtB])
  | cons x xs ih =>
    intro b
    cases b with
    | nil => exact Or.inr (Or.inr (by simp [strLtB]))
    | cons y ys =>
      rcases lt_trichotomy x y with h | h | h
      · exact Or.inl (by simp [strLtB, h])
      · subst h
        rcases ih ys with h2 | h2 | h2
        · exact Or.inl (by simp [strLtB, lt_irrefl, h2])
        · exact Or.inr (Or.inl (by rw [h2]))
        · exact Or.inr (Or.inr (by simp [strLtB, lt_irrefl, h2]))
      · exact Or.inr (Or.inr (by simp [strLtB, h]))

theorem strLeB_refl (a : Str) : strLeB a a = true := by simp [strLeB]

theorem strLeB_iff (a b : Str) :
    strLeB a b = true ↔ strLtB a b = true ∨ a = b := by
  simp [strLeB]

theorem strLeB_trans {a b c : Str} (h1 : strLeB a b = true)
    (h2 : strLeB b c = true) : strLeB a c = true := by
  rcases (strLeB_iff a b).mp h1 with h1 | h1
  · rcases (strLeB_iff b c).mp h2 with h2 | h2
    · exact (strLeB_iff a c).mpr (Or.inl (strLtB_trans a b c h1 h2))
    · subst h2
      exact (strLeB_iff a b).mpr (Or.inl h1)
  · subst h1
    exact h2

theorem strLeB_of_not {a b : Str} (h : ¬strLeB a b = true) :
    strLeB b a = true := by
  rcases strLtB_tri a b with h1 | h1 | h1
  · exact absurd ((strLeB_iff a b).mpr (Or.inl h1)) h
  · subst h1
    exact strLeB_refl a
  · exact (strLeB_iff b a).mpr (Or.inl h1)

theorem mem_insSorted (a x : Str) : ∀ l : List Str,
    a ∈ insSorted x l ↔ a = x ∨ a ∈ l := by
  intro l
  induction l with
  | nil => simp [insSorted]
  | cons y ys ih =>
    by_cases h : strLeB x y = true
    · rw [insSorted, if_pos h]
      simp [List.mem_cons]
    · rw [insSorted, if_neg h]
      simp only [List.mem_cons, ih]
      tauto

theorem pairwise_insSorted (x : Str) : ∀ l : List Str,
    List.Pairwise (fun a b => strLeB a b = true) l →
    List.Pairwise (fun a b => strLeB a b = true) (insSorted x l) := by
  intro l
  induction l with
  | nil => intro _; simp [insSorted]
  | cons y ys ih =>
    intro h
    obtain ⟨hy, hys⟩ := List.pairwise_cons.mp h
    by_cases hxy : strLeB x y = true
    · rw [insSorted, if_pos hxy]
      refine List.pairwise_cons.mpr ⟨?_, h⟩
      intro b hb
      rcases List.mem_cons.mp hb with rfl | hb2
      · exact hxy
      · exact strLeB_trans hxy (hy b hb2)
    · rw [insSorted, if_neg hxy]
      refine List.pairwise_cons.mpr ⟨?_, ih hys⟩
      intro b hb
      rcases (mem_insSorted b x ys).mp hb with rfl | hb2
      · exact strLeB_of_not hxy
      · exact hy b hb2

theorem sortStr_pairwise : ∀ l : List Str,
    List.Pairwise (fun a b => strLeB a b = true) (sortStr l) := by
  intro l
  induction l with
  | nil => simp [sortStr]
  | cons x xs ih => exact pairwise_insSorted x (sortStr xs) ih

theorem mem_sortStr (a : Str) : ∀ l : List Str, a ∈ sortStr l ↔ a ∈ l := by
  intro l
  induction l with
  | nil => simp [sortStr]
  | cons x xs ih =>
    show a ∈ insSorted x (sortStr xs) ↔ _
    rw [mem_insSorted, ih, List.mem_cons]

theorem strLtB_append_cancel : ∀ (a : Str) (b s : Str),
    a.length = b.length → strLtB (a ++ s) (b ++ s) = true →
    strLtB a b = true ∨ a = b := by
  intro a
  induction a with
  | nil =>
    intro b s hl _
    cases b with
    | nil => exact Or.inr rfl
    | cons y ys => simp at hl
  | cons x xs ih =>
    intro b s hl h
    cases b with
    | nil => simp at hl
    | cons y ys =>
      simp only [List.cons_append, strLtB] at h
      by_cases hxy : x < y
      · exact Or.inl (by simp [strLtB, hxy])
      · rw [if_neg hxy] at h
        by_cases hxy2 : x = y
        · subst hxy2
          rw [if_pos rfl] at h
          have hl2 : xs.length = ys.length := by simpa using hl
          rcases ih ys s hl2 h with h2 | h2
          · exact Or.inl (by simp [strLtB, lt_irrefl, h2])
          · exact Or.inr (by rw [h2])
        · rw [if_neg hxy2] at h
          cases h

theorem strLeB_append_cancel {a b s : Str} (hl : a.length = b.length)
    (h : strLeB (a ++ s) (b ++ s) = true) : strLeB a b = true := by
  rcases (strLeB_iff _ _).mp h with h1 | h1
  · rcases strLtB_append_cancel a b s hl h1 with h2 | h2
    · exact (strLeB_iff a b).mpr (Or.inl h2)
    · subst h2
      exact strLeB_refl a
  · have : a = b := List.append_cancel_right h1
    subst this
    exact strLeB_refl a

theorem fmtFile_length (d : DT) : (fmtFile d).length = 15 := by
  simp [fmtFile, pad4, pad2]

/-! ## Lemmas about `parse_pdfs` and `download_pdfs` -/

/-- The loop body of `parse_pdfs` as a `filterMap` function. -/
theorem parsePdfsGo_ok (txts : Str → Str) (last : DT) : ∀ (L : List Str)
    (info : List Row), parsePdfsGo txts last L = .ok info →
    info = L.filterMap (fun f =>
      match parseFileName (f.take (f.length - 4)) with
      | none => none
      | some dt =>
        if dtLe dt last = true then none else some (mkRow dt (txts f))) := by
  intro L
  induction L with
  | nil =>
    intro info h
    simp only [parsePdfsGo] at h
    cases h
    rfl
  | cons f rest ih =>
    intro info h
    simp only [parsePdfsGo] at h
    cases hp : parseFileName (f.take (f.length - 4)) with
    | none => simp only [hp] at h; cases h
    | some dt =>
      simp only [hp] at h
      by_cases hskip : dtLe dt last = true
      · rw [if_pos hskip] at h
        rw [List.filterMap_cons]
        simp only [hp, if_pos hskip]
        exact ih info h
      · rw [if_neg hskip] at h
        cases hrec : parsePdfsGo txts last rest with
        | error e => rw [hrec] at h; cases h
        | ok rows =>
          rw [hrec] at h
          cases h
          rw [List.filterMap_cons]
          simp only [hp, if_neg hskip]
          exact congrArg (List.cons _) (ih rows hrec)

theorem parse_pdfs_chr (files : List Str) (txts : Str → Str) (last : DT)
    (info : List Row) (h : parse_pdfs files txts last = .ok info) :
    info = (sortStr (files.filter globPdf)).filterMap (fun f =>
      match parseFileName (f.take (f.length - 4)) with
      | none => none
      | some dt =>
        if dtLe dt last = true then none else some (mkRow dt (txts f))) :=
  parsePdfsGo_ok txts last _ info h

theorem parse_pdfs_mem (files : List Str) (txts : Str → Str) (last : DT)
    (info : List Row) (f : Str) (dt : DT)
    (h : parse_pdfs files txts last = .ok info) (hf : f ∈ files)
    (hg : globPdf f = true)
    (hp : parseFileName (f.take (f.length - 4)) = some dt)
    (hlt : dtLe dt last = false) : mkRow dt (txts f) ∈ info := by
  rw [parse_pdfs_chr files txts last info h]
  apply List.mem_filterMap.mpr
  refine ⟨f, (mem_sortStr f _).mpr (List.mem_filter.mpr ⟨hf, hg⟩), ?_⟩
  simp [hp, hlt]

theorem parse_pdfs_mem_inv (files : List Str) (txts : Str → Str) (last : DT)
    (info : List Row) (r : Row)
    (h : parse_pdfs files txts last = .ok info) (hr : r ∈ info) :
    ∃ f dt, f ∈ files ∧ globPdf f = true ∧
      parseFileName (f.take (f.length - 4)) = some dt ∧
      dtLe dt last = false ∧ r = mkRow dt (txts f) := by
  rw [parse_pdfs_chr files txts last info h] at hr
  obtain ⟨f, hf, hbody⟩ := List.mem_filterMap.mp hr
  have hf2 := List.mem_filter.mp ((mem_sortStr f _).mp hf)
  cases hp : parseFileName (f.take (f.length - 4)) with
  | none => simp only [hp] at hbody; cases hbody
  | some dt =>
    simp only [hp] at hbody
    by_cases hskip : dtLe dt last = true
    · rw [if_pos hskip] at hbody
      cases hbody
    · rw [if_neg hskip] at hbody
      cases hbody
      exact ⟨f, dt, hf2.1, hf2.2, hp, boolNotTrue hskip, rfl⟩

theorem parsePdfsGo_skip (txts : Str → Str) (last : DT) : ∀ L : List Str,
    (∀ f ∈ L, ∃ dt, parseFileName (f.take (f.length - 4)) = some dt ∧
      dtLe dt last = true) →
    parsePdfsGo txts last L = .ok [] := by
  intro L
  induction L with
  | nil => intro _; rfl
  | cons f rest ih =>
    intro h
    obtain ⟨dt, hp, hle⟩ := h f (List.mem_cons_self f rest)
    simp only [parsePdfsGo, hp, if_pos hle]
    exact ih (fun g hg => h g (List.mem_cons_of_mem f hg))

theorem download_all_present (fok : Str → Bool) : ∀ (links : SMap)
    (files : List Str),
    (∀ p ∈ links, lmem (p.1 ++ ".pdf".data) files = true) →
    download_pdfs files fok links = .ok files := by
  intro links
  induction links with
  | nil => intro files _; rfl
  | cons p rest ih =>
    intro files h
    obtain ⟨dt, url⟩ := p
    have h1 : lmem (dt ++ ".pdf".data) files = true :=
      h (dt, url) (List.mem_cons_self _ rest)
    simp only [download_pdfs]
    rw [if_pos h1]
    exact ih files (fun q hq => h q (List.mem_cons_of_mem _ hq))

/-- On a canonically named, lexicographically sorted file list the produced
rows follow ascending canonical-encoding order. -/
theorem parsePdfsGo_canon (txts : Str → Str) (last : DT) : ∀ (L : List Str)
    (info : List Row), parsePdfsGo txts last L = .ok info →
    (∀ f ∈ L, ∃ d : DT, f = fmtFile d ++ ".pdf".data ∧
      parseFileName (fmtFile d) = some d) →
    List.Pairwise (fun a b => strLeB a b = true) L →
    ∃ dts : List DT,
      info = dts.map (fun d => mkRow d (txts (fmtFile d ++ ".pdf".data))) ∧
      (∀ d2 ∈ dts, fmtFile d2 ++ ".pdf".data ∈ L) ∧
      List.Pairwise (fun a b => strLeB (fmtFile a) (fmtFile b) = true) dts
    := by
  intro L
  induction L with
  | nil =>
    intro info h _ _
    simp only [parsePdfsGo] at h
    cases h
    exact ⟨[], rfl, by simp, by simp⟩
  | cons f rest ih =>
    intro info h hcanon hpw
    obtain ⟨hhd, hpw2⟩ := List.pairwise_cons.mp hpw
    obtain ⟨d, hf, hpd⟩ := hcanon f (List.mem_cons_self f rest)
    have hstem : f.take (f.length - 4) = fmtFile d := by
      subst hf
      have : (fmtFile d ++ ".pdf".data).length - 4 = (fmtFile d).length := by
        simp
      rw [this, List.take_left]
    simp only [parsePdfsGo, hstem, hpd] at h
    by_cases hskip : dtLe d last = true
    · rw [if_pos hskip] at h
      obtain ⟨dts, h1, h2, h3⟩ :=
        ih info h (fun g hg => hcanon g (List.mem_cons_of_mem f hg)) hpw2
      exact ⟨dts, h1, fun d2 hd2 => List.mem_cons_of_mem f (h2 d2 hd2), h3⟩
    · rw [if_neg hskip] at h
      cases hrec : parsePdfsGo txts last rest with
      | error e => rw [hrec] at h; cases h
      | ok rows =>
        rw [hrec] at h
        cases h
        obtain ⟨dts, h1, h2, h3⟩ :=
          ih rows hrec (fun g hg => hcanon g (List.mem_cons_of_mem f hg)) hpw2
        refine ⟨d :: dts, ?_, ?_, ?_⟩
        · rw [List.map_cons, ← h1, ← hf]
        · intro d2 hd2
          rcases List.mem_cons.mp hd2 with rfl | hd3
          · rw [← hf]; exact List.mem_cons_self f rest
          · exact List.mem_cons_of_mem f (h2 d2 hd3)
        · refine List.pairwise_cons.mpr ⟨?_, h3⟩
          intro d2 hd2
          have hg : fmtFile d2 ++ ".pdf".data ∈ rest := h2 d2 hd2
          have hle : strLeB f (fmtFile d2 ++ ".pdf".data) = true := hhd _ hg
          rw [hf] at hle
          exact strLeB_append_cancel
            (by rw [fmtFile_length, fmtFile_length]) hle

/-! ## Lemmas about `get_last_update` -/

theorem dtLe_refl (a : DT) : dtLe a a = true := by simp [dtLe]

theorem getLastMemDT : ∀ (ds : List DT) (d : DT), ds.getLast? = some d →
    d ∈ ds := by
  intro ds
  induction ds with
  | nil => intro d h; cases h
  | cons d0 rest ih =>
    intro d h
    cases rest with
    | nil =>
      have : d0 = d := by simpa using h
      subst this
      exact List.mem_cons_self d0 []
    | cons d1 rest2 =>
      rw [List.getLast?_cons_cons] at h
      exact List.mem_cons_of_mem d0 (ih d h)

theorem colParsed_last : ∀ (rows : List (List Str)) (ds : List DT),
    colParsed rows = some ds →
    (rows = [] ∧ ds = []) ∨
      ∃ d, getLastUpdate rows = .ok d ∧ ds.getLast? = some d := by
  intro rows
  induction rows with
  | nil =>
    intro ds h
    simp only [colParsed] at h
    cases h
    exact Or.inl ⟨rfl, rfl⟩
  | cons r rest ih =>
    intro ds h
    simp only [colParsed] at h
    cases r with
    | nil => cases h
    | cons c rtail =>
      cases hc : parseSheetCell c with
      | none => simp only [hc] at h; cases h
      | some d0 =>
        simp only [hc] at h
        cases hrest : colParsed rest with
        | none => rw [hrest] at h; cases h
        | some ds' =>
          rw [hrest] at h
          simp only [Option.map_some'] at h
          cases h
          cases rest with
          | nil =>
            have hds' : ds' = [] := by simpa [colParsed] using hrest
            subst hds'
            exact Or.inr ⟨d0, by simp [getLastUpdate, hc], rfl⟩
          | cons r2 rest2 =>
            rcases ih ds' hrest with ⟨hnil, _⟩ | ⟨d, hgl, hlast⟩
            · cases hnil
            · refine Or.inr ⟨d, ?_, ?_⟩
              · simpa only [getLastUpdate, List.getLast?_cons_cons] using hgl
              · cases ds' with
                | nil => cases hlast
                | cons e es =>
                  rw [List.getLast?_cons_cons]
                  exact hlast

theorem pairwise_last : ∀ (ds : List DT) (d : DT),
    List.Pairwise (fun a b => dtLe a b = true) ds →
    ds.getLast? = some d → ∀ x ∈ ds, dtLe x d = true := by
  intro ds
  induction ds with
  | nil => intro d _ h; cases h
  | cons d0 rest ih =>
    intro d hpw hlast x hx
    obtain ⟨hd0, hrest⟩ := List.pairwise_cons.mp hpw
    cases rest with
    | nil =>
      have h1 : d0 = d := by simpa using hlast
      have h2 : x = d0 := by simpa using hx
      subst h1
      subst h2
      exact dtLe_refl x
    | cons d1 rest2 =>
      rw [List.getLast?_cons_cons] at hlast
      rcases List.mem_cons.mp hx with rfl | hx2
      · exact hd0 d (getLastMemDT _ d hlast)
      · exact ih d hrest hlast x hx2

theorem lastUpdate_is_max (rows : List (List Str)) (ds : List DT) (d : DT)
    (hc : colParsed rows = some ds)
    (hpw : List.Pairwise (fun a b => dtLe a b = true) ds)
    (hg : getLastUpdate rows = .ok d) :
    ∀ x ∈ ds, dtLe x d = true := by
  rcases colParsed_last rows ds hc with ⟨_, hds⟩ | ⟨d', hgl, hlast⟩
  · subst hds
    intro x hx
    cases hx
  · have hdd : d' = d := by
      rw [hgl] at hg
      cases hg
      rfl
    subst hdd
    exact pairwise_last ds d' hpw hlast

theorem getD_extract (txt : Str) (i : Nat) (hi : i < REGEXS.length) :
    (extractFields txt).getD i none = search_for (REGEXS.getD i []) txt := by
  have h5 : i < 5 := by simpa [REGEXS] using hi
  interval_cases i <;> rfl

/-! ## Claims C1, C2, C4, C7, C8 -/

/-- Claim C1, refuted as stated: the datetime-conversion pass of
`get_links` CAN merge two distinct surviving entries.  The two listings
below each survive to the conversion pass on their own and both encode to
`2020-03-16_1400` (one via the year-less format with the year forced to
2020, one via the explicit-year format) with different URLs; on the
combined listing `get_links` succeeds and silently keeps only the later
URL, resolving the collision by overwrite rather than by the correction
rule or an error. -/
theorem counterexample_C1 :
    get_links
        [("Monday March 16 2PM".data,
          "/files/health/coronavirus/a.pdf".data)] =
      .ok [("2020-03-16_1400".data,
            DOMAIN ++ "/files/health/coronavirus/a.pdf".data)] ∧
    get_links
        [("Monday March 16 2020 2PM".data,
          "/files/health/coronavirus/b.pdf".data)] =
      .ok [("2020-03-16_1400".data,
            DOMAIN ++ "/files/health/coronavirus/b.pdf".data)] ∧
    DOMAIN ++ "/files/health/coronavirus/a.pdf".data ≠
      DOMAIN ++ "/files/health/coronavirus/b.pdf".data ∧
    get_links
        [("Monday March 16 2PM".data,
          "/files/health/coronavirus/a.pdf".data),
         ("Monday March 16 2020 2PM".data,
          "/files/health/coronavirus/b.pdf".data)] =
      .ok [("2020-03-16_1400".data,
            DOMAIN ++ "/files/health/coronavirus/b.pdf".data)] :=
  ⟨rfl, rfl, by decide, rfl⟩

/-- Claim C1 as amended: every catalog produced by `get_links` has unique
timestamp keys (a Python dict cannot hold duplicate keys); however, when
two distinct surviving entries encode to the same canonical timestamp the
conversion pass resolves the collision by silently overwriting: writing to
an existing key replaces its URL in place without growing the key set or
raising, as the combined colliding listing below exhibits concretely. -/
theorem claim_C1 :
    (∀ (anchors : List (Str × Str)) (m : SMap),
        get_links anchors = .ok m → (dkeys m).Nodup) ∧
    (∀ (m : SMap) (k v : Str), (dget m k).isSome = true →
        dkeys (dinsert m k v) = dkeys m ∧
        dget (dinsert m k v) k = some v) ∧
    get_links
        [("Monday March 16 2PM".data,
          "/files/health/coronavirus/a.pdf".data),
         ("Monday March 16 2020 2PM".data,
          "/files/health/coronavirus/b.pdf".data)] =
      .ok [("2020-03-16_1400".data,
            DOMAIN ++ "/files/health/coronavirus/b.pdf".data)] :=
  ⟨get_links_nodup,
   fun m k v h => ⟨dkeys_dinsert_present m k v h, dget_dinsert_self m k v⟩,
   rfl⟩

/-- Witness for C1: the amended claim applied to the concrete colliding
listing. -/
theorem claim_C1_witness :
    (dkeys [("2020-03-16_1400".data,
             DOMAIN ++ "/files/health/coronavirus/b.pdf".data)]).Nodup :=
  claim_C1.1
    [("Monday March 16 2PM".data, "/files/health/coronavirus/a.pdf".data),
     ("Monday March 16 2020 2PM".data,
      "/files/health/coronavirus/b.pdf".data)]
    _ rfl

/-- Claim C2, refuted as stated: the base label is computed by
`text.replace('corrected', '').strip()`, not by collapsing whitespace.
For a label with `Corrected` in the middle the spec's base label (word
removed, whitespace collapsed) IS present in the working map, yet `build`
fails with the uncorrected-link error because the code's stripped-only
base keeps an interior double space. -/
theorem counterexample_C2 :
    containsSub "corrected".data
        (normalizeLabel "Monday Corrected March 16 2020 2PM".data) = true ∧
    (dget
        (getLinksRaw
          [("Monday March 16 2020 2PM".data,
            "/files/health/coronavirus/h1.pdf".data),
           ("Monday Corrected March 16 2020 2PM".data,
            "/files/health/coronavirus/h2.pdf".data)])
        (claimedBaseLabel
          (normalizeLabel
            "Monday Corrected March 16 2020 2PM".data))).isSome = true ∧
    get_links
        [("Monday March 16 2020 2PM".data,
          "/files/health/coronavirus/h1.pdf".data),
         ("Monday Corrected March 16 2020 2PM".data,
          "/files/health/coronavirus/h2.pdf".data)] =
      .error "ERROR: uncorrected link not found" :=
  ⟨by decide, by decide, rfl⟩

/-- Claim C2 as amended: for every label containing `corrected` the base
label is the label with every `corrected` occurrence removed and the
surrounding (leading/trailing, not interior) whitespace stripped; if that
base label is a key of the working map its URL is replaced by the
corrected entry's URL and the corrected-labeled entry is removed,
otherwise build fails with the uncorrected-link error; and the scenario
listing yields exactly the catalog entry
`2020-03-16_1400 -> …/health-update-1-v2.pdf`. -/
theorem claim_C2 :
    (∀ (m : SMap) (text url : Str), dget m text = some url →
        containsSub "corrected".data text = true →
        correctionStep m text =
          (if (dget m (pyStrip (replaceDrop "corrected".data text))).isSome
           then .ok (ddel
              (dinsert m (pyStrip (replaceDrop "corrected".data text)) url)
              text)
           else .error "ERROR: uncorrected link not found")) ∧
    get_links
        [("Monday March 16 2020 2PM".data,
          "/files/health/coronavirus/health-update-1.pdf".data),
         ("Monday March 16 2020 2PM Corrected".data,
          "/files/health/coronavirus/health-update-1-v2.pdf".data)] =
      .ok [("2020-03-16_1400".data,
            DOMAIN ++ "/files/health/coronavirus/health-update-1-v2.pdf".data)]
    := by
  constructor
  · intro m text url hget hc
    unfold correctionStep
    rw [if_pos hc, hget]
  · rfl

/-- Witness for C2: the amended correction rule applied to a concrete
working map holding a base label and its corrected label. -/
theorem claim_C2_witness :
    correctionStep
        [("monday march 16 2020 2pm".data, "u1".data),
         ("monday march 16 2020 2pm corrected".data, "u2".data)]
        "monday march 16 2020 2pm corrected".data =
      .ok [("monday march 16 2020 2pm".data, "u2".data)] := by
  have h := claim_C2.1
    [("monday march 16 2020 2pm".data, "u1".data),
     ("monday march 16 2020 2pm corrected".data, "u2".data)]
    "monday march 16 2020 2pm corrected".data "u2".data (by decide) (by decide)
  exact h.trans rfl

/-- Claim C4, refuted as stated: the sentinel placed for a non-matching
pattern is the string `n/a`, not `not available`.  On the scenario text
the ICU position holds `n/a`. -/
theorem counterexample_C4 :
    extractFields "There are 142 confirmed cases".data =
      [some "142".data, some "n/a".data, some "n/a".data, some "n/a".data,
       some "n/a".data] ∧
    ("n/a".data : Str) ≠ "not available".data :=
  ⟨rfl, by decide⟩

/-- Claim C4 as amended: for every bulletin text and pattern position, a
pattern with no match yields the sentinel `n/a` at that position
(positional alignment preserved); on the scenario text the case-count
field is `142` and the ICU field is the sentinel `n/a`. -/
theorem claim_C4 :
    (∀ (txt : Str) (i : Nat), i < REGEXS.length →
        reSearch (REGEXS.getD i []) txt = none →
        (extractFields txt).getD i none = some "n/a".data) ∧
    (extractFields "There are 142 confirmed cases".data).getD 0 none =
      some "142".data ∧
    (extractFields "There are 142 confirmed cases".data).getD 3 none =
      some "n/a".data := by
  refine ⟨fun txt i hi h => ?_, rfl, rfl⟩
  rw [getD_extract txt i hi]
  unfold search_for
  rw [h]

/-- Witness for C4: the amended sentinel rule applied to the scenario text
at the ICU position. -/
theorem claim_C4_witness :
    (extractFields "There are 142 confirmed cases".data).getD 3 none =
      some "n/a".data :=
  claim_C4.1 _ 3 (by decide) rfl

/-- Claim C7: the store is written at most once per run, and a run aborted
by any earlier failure appends nothing: in `mainRun` the batch list has at
most one element, and an error outcome forces an empty batch list. -/
theorem claim_C7 : ∀ inp : Inputs,
    (mainRun inp).1.length ≤ 1 ∧
    (∀ e, (mainRun inp).2 = .error e → (mainRun inp).1 = []) := by
  intro inp
  rcases hg : get_links inp.anchors with e | links
  · simp only [mainRun, hg]
    exact ⟨by simp, fun _ _ => trivial⟩
  rcases hd : download_pdfs inp.files0 inp.fetchOk links with e | files1
  · simp only [mainRun, hg, hd]
    exact ⟨by simp, fun _ _ => trivial⟩
  rcases hl : getLastUpdate inp.colValues with e | last
  · simp only [mainRun, hg, hd, hl]
    exact ⟨by simp, fun _ _ => trivial⟩
  rcases hp : parse_pdfs files1 inp.pdfText last with e | info
  · simp only [mainRun, hg, hd, hl, hp]
    exact ⟨by simp, fun _ _ => trivial⟩
  by_cases hi : info = []
  · simp only [mainRun, hg, hd, hl, hp, if_pos hi]
    exact ⟨by simp, fun e h => by cases h⟩
  · simp only [mainRun, hg, hd, hl, hp, if_neg hi]
    exact ⟨by simp, fun e h => by cases h⟩

/-- Witness for C7: a run aborted by an unparseable listing label appends
nothing. -/
theorem claim_C7_witness :
    (mainRun ⟨[("foo".data, "/files/health/coronavirus/x.pdf".data)], [],
        fun _ => true, [], fun _ => []⟩).2 =
      .error "ValueError: time data does not match format" ∧
    (mainRun ⟨[("foo".data, "/files/health/coronavirus/x.pdf".data)], [],
        fun _ => true, [], fun _ => []⟩).1 = [] :=
  ⟨rfl, (claim_C7 _).2 _ rfl⟩

/-- Claim C8: for every bulletin text the extracted value sequence has
exactly the length of the declared pattern list, which is five, regardless
of how many patterns match; `extractFields` is total, so extraction never
fails. -/
theorem claim_C8 : ∀ txt : Str,
    (extractFields txt).length = REGEXS.length ∧ REGEXS.length = 5 :=
  fun _ => ⟨by simp [extractFields], rfl⟩

/-! ## Substring and token lemmas (for claim C6) -/

theorem lmem_iff (x : Str) : ∀ l : List Str, lmem x l = true ↔ x ∈ l := by
  intro l
  induction l with
  | nil => simp [lmem]
  | cons y ys ih =>
    by_cases h : y = x
    · subst h
      simp [lmem]
    · rw [lmem, if_neg h, ih, List.mem_cons]
      have h' : ¬x = y := fun hh => h hh.symm
      simp [h']

theorem isPre_iff : ∀ p l : Str, isPre p l = true ↔ ∃ v, p ++ v = l := by
  intro p
  induction p with
  | nil =>
    intro l
    simp [isPre]
  | cons a as ih =>
    intro l
    cases l with
    | nil => simp [isPre]
    | cons b bs =>
      by_cases hab : a = b
      · subst hab
        rw [isPre, if_pos rfl, ih bs]
        constructor
        · rintro ⟨v, hv⟩
          exact ⟨v, by rw [List.cons_append, hv]⟩
        · rintro ⟨v, hv⟩
          exact ⟨v, by injection hv⟩
      · rw [isPre, if_neg hab]
        constructor
        · intro h
          cases h
        · rintro ⟨v, hv⟩
          injection hv with h1 _
          exact absurd h1 hab

theorem containsSub_iff : ∀ (s p : Str),
    containsSub p s = true ↔ SubSeg p s := by
  intro s
  induction s with
  | nil =>
    intro p
    rw [containsSub]
    simp only [Bool.or_false]
    rw [isPre_iff]
    constructor
    · rintro ⟨v, hv⟩
      rcases List.append_eq_nil.mp hv with ⟨rfl, rfl⟩
      exact ⟨[], [], rfl⟩
    · rintro ⟨u, v, h⟩
      rcases List.append_eq_nil.mp h with ⟨h1, rfl⟩
      rcases List.append_eq_nil.mp h1 with ⟨rfl, rfl⟩
      exact ⟨[], rfl⟩
  | cons c t ih =>
    intro p
    rw [containsSub, Bool.or_eq_true, isPre_iff]
    constructor
    · rintro (⟨v, hv⟩ | h)
      · exact ⟨[], v, by simpa using hv⟩
      · obtain ⟨u, v, huv⟩ := (ih p).mp h
        exact ⟨c :: u, v, by rw [← huv]; rfl⟩
    · rintro ⟨u, v, h⟩
      cases u with
      | nil => exact Or.inl ⟨v, by simpa using h⟩
      | cons x u2 =>
        injection h with h1 h2
        exact Or.inr ((ih p).mpr ⟨u2, v, h2⟩)

theorem subseg_map (f : Char → Char) {p s : Str} (h : SubSeg p s) :
    SubSeg (p.map f) (s.map f) := by
  obtain ⟨u, v, huv⟩ := h
  exact ⟨u.map f, v.map f, by rw [← huv]; simp⟩

theorem subseg_len {p s : Str} (h : SubSeg p s) : p.length ≤ s.length := by
  obtain ⟨u, v, huv⟩ := h
  have := congrArg List.length huv
  simp only [List.length_append] at this
  omega

theorem subseg_eq_of_len {p s : Str} (h : SubSeg p s)
    (hl : p.length = s.length) : p = s := by
  obtain ⟨u, v, huv⟩ := h
  have hlen := congrArg List.length huv
  simp only [List.length_append] at hlen
  have hu : u = [] := List.length_eq_zero.mp (by omega)
  have hv : v = [] := List.length_eq_zero.mp (by omega)
  subst hu
  subst hv
  simpa using huv

theorem wsTokensGo_subseg : ∀ (s acc t : Str), t ∈ wsTokensGo acc s →
    SubSeg t (acc.reverse ++ s) := by
  intro s
  induction s with
  | nil =>
    intro acc t h
    rw [wsTokensGo] at h
    by_cases ha : acc = []
    · rw [if_pos ha] at h
      cases h
    · rw [if_neg ha] at h
      have ht : t = acc.reverse := by simpa using h
      subst ht
      exact ⟨[], [], by simp⟩
  | cons c rest ih =>
    intro acc t h
    rw [wsTokensGo] at h
    by_cases hsp : pyIsSpace c = true
    · rw [if_pos hsp] at h
      by_cases ha : acc = []
      · rw [if_pos ha] at h
        subst ha
        obtain ⟨u, v, huv⟩ := ih [] t h
        simp only [List.reverse_nil, List.nil_append] at huv
        refine ⟨c :: u, v, ?_⟩
        rw [List.reverse_nil, List.nil_append, List.cons_append,
          List.cons_append, huv]
      · rw [if_neg ha] at h
        rcases List.mem_cons.mp h with rfl | h2
        · exact ⟨[], c :: rest, by simp⟩
        · obtain ⟨u, v, huv⟩ := ih [] t h2
          simp only [List.reverse_nil, List.nil_append] at huv
          refine ⟨acc.reverse ++ c :: u, v, ?_⟩
          have h3 : u ++ (t ++ v) = rest := by
            rw [← List.append_assoc]
            exact huv
          simp only [List.append_assoc, List.cons_append, h3]
    · rw [if_neg hsp] at h
      have := ih (c :: acc) t h
      simpa [List.append_assoc] using this

theorem token_subseg (t s : Str) (h : t ∈ wsTokens s) : SubSeg t s := by
  simpa using wsTokensGo_subseg s [] t h

theorem subseg_split : ∀ (a b p : Str) (c : Char),
    SubSeg p (a ++ c :: b) → c ∉ p → SubSeg p a ∨ SubSeg p b := by
  rintro a b p c ⟨u, v, h⟩ hc
  rcases List.append_eq_append_iff.mp h with ⟨a2, ha, -⟩ | ⟨c2, hu, hcb⟩
  · exact Or.inl ⟨u, a2, ha.symm⟩
  · rcases List.append_eq_append_iff.mp hu with ⟨w, ha2, hp2⟩ | ⟨w, hu2, hc2⟩
    · cases c2 with
      | nil =>
        rw [List.append_nil] at hu
        refine Or.inl ⟨u, [], ?_⟩
        rw [List.append_nil]
        exact hu
      | cons x c3 =>
        rw [List.cons_append] at hcb
        injection hcb with h1 _
        subst h1
        refine absurd ?_ hc
        rw [hp2]
        exact List.mem_append.mpr (Or.inr (List.mem_cons_self _ _))
    · subst hc2
      cases w with
      | nil =>
        simp only [List.nil_append] at hcb
        cases p with
        | nil => exact Or.inr ⟨[], b, by simp⟩
        | cons y p2 =>
          rw [List.cons_append] at hcb
          injection hcb with h1 _
          subst h1
          exact absurd (List.mem_cons_self _ _) hc
      | cons x w2 =>
        rw [List.cons_append, List.cons_append] at hcb
        injection hcb with h1 h2
        exact Or.inr ⟨w2, v, h2.symm⟩

theorem wsTokensGo_cover : ∀ (s acc p : Str),
    p ≠ [] → (∀ ch ∈ p, pyIsSpace ch = false) →
    SubSeg p (acc.reverse ++ s) →
    ∃ t ∈ wsTokensGo acc s, SubSeg p t := by
  intro s
  induction s with
  | nil =>
    intro acc p hp hpn hsub
    rw [List.append_nil] at hsub
    have hacc : acc ≠ [] := by
      rintro rfl
      obtain ⟨u, v, huv⟩ := hsub
      rcases (by simpa using huv : u = [] ∧ p = [] ∧ v = []) with ⟨-, h3, -⟩
      exact hp h3
    rw [wsTokensGo, if_neg hacc]
    exact ⟨acc.reverse, List.mem_singleton.mpr rfl, hsub⟩
  | cons c rest ih =>
    intro acc p hp hpn hsub
    by_cases hsp : pyIsSpace c = true
    · have hcp : c ∉ p := fun hcin => by
        rw [hpn c hcin] at hsp
        cases hsp
      rcases subseg_split acc.reverse rest p c hsub hcp with h1 | h1
      · have hacc : acc ≠ [] := by
          rintro rfl
          obtain ⟨u, v, huv⟩ := h1
          rcases (by simpa using huv : u = [] ∧ p = [] ∧ v = []) with
            ⟨-, h3, -⟩
          exact hp h3
        rw [wsTokensGo, if_pos hsp, if_neg hacc]
        exact ⟨acc.reverse, List.mem_cons_self _ _, h1⟩
      · obtain ⟨t, ht, hsub2⟩ := ih [] p hp hpn (by simpa using h1)
        rw [wsTokensGo, if_pos hsp]
        by_cases hacc : acc = []
        · rw [if_pos hacc]
          exact ⟨t, ht, hsub2⟩
        · rw [if_neg hacc]
          exact ⟨t, List.mem_cons_of_mem _ ht, hsub2⟩
    · have hsub2 : SubSeg p ((c :: acc).reverse ++ rest) := by
        simpa [List.append_assoc] using hsub
      obtain ⟨t, ht, hsub3⟩ := ih (c :: acc) p hp hpn hsub2
      rw [wsTokensGo, if_neg hsp]
      exact ⟨t, ht, hsub3⟩

theorem token_of_subseg (p s : Str) (hp : p ≠ [])
    (hpn : ∀ ch ∈ p, pyIsSpace ch = false) (hsub : SubSeg p s) :
    ∃ t ∈ wsTokens s, SubSeg p t := by
  exact wsTokensGo_cover s [] p hp hpn (by simpa using hsub)

theorem no2020_weekday (wd : Str) (h : matchWeekday wd = true) :
    ¬SubSeg "2020".data wd := by
  intro hsub
  have h2 : SubSeg "2020".data (lowerStr wd) := by
    have := subseg_map pyLower hsub
    simpa [lowerStr, show ("2020".data).map pyLower = "2020".data from rfl]
      using this
  have hcon : containsSub "2020".data (lowerStr wd) = true :=
    (containsSub_iff _ _).mpr h2
  have hmem : lowerStr wd ∈ weekdayNames := (lmem_iff _ _).mp h
  simp only [weekdayNames, List.mem_cons, List.not_mem_nil, or_false]
    at hmem
  rcases hmem with h3 | h3 | h3 | h3 | h3 | h3 | h3 <;> rw [h3] at hcon <;>
    revert hcon <;> decide

theorem idxOf_mem (x : Str) : ∀ (l : List Str) (i : Nat),
    idxOf x l = some i → x ∈ l := by
  intro l
  induction l with
  | nil => intro i hi; cases hi
  | cons y ys ih =>
    intro i hi
    simp only [idxOf] at hi
    by_cases hy : y = x
    · rw [hy]
      exact List.mem_cons_self _ _
    · rw [if_neg hy] at hi
      cases hj : idxOf x ys with
      | none => rw [hj] at hi; cases hi
      | some j => exact List.mem_cons_of_mem _ (ih j hj)

theorem no2020_month (mon : Str) (h : (matchMonth mon).isSome = true) :
    ¬SubSeg "2020".data mon := by
  intro hsub
  have h2 : SubSeg "2020".data (lowerStr mon) := by
    have := subseg_map pyLower hsub
    simpa [lowerStr, show ("2020".data).map pyLower = "2020".data from rfl]
      using this
  have hcon : containsSub "2020".data (lowerStr mon) = true :=
    (containsSub_iff _ _).mpr h2
  have hmem : lowerStr mon ∈ monthNames := by
    unfold matchMonth at h
    cases hi : idxOf (lowerStr mon) monthNames with
    | none => rw [hi] at h; cases h
    | some i => exact idxOf_mem _ _ i hi
  simp only [monthNames, List.mem_cons, List.not_mem_nil, or_false] at hmem
  rcases hmem with h3|h3|h3|h3|h3|h3|h3|h3|h3|h3|h3|h3 <;> rw [h3] at hcon <;>
    revert hcon <;> decide

theorem no2020_day (dk : Str) (h : (matchDay dk).isSome = true) :
    ¬SubSeg "2020".data dk := by
  intro hsub
  have hlen : 4 ≤ dk.length := subseg_len hsub
  rcases dk with - | ⟨a, - | ⟨b, - | ⟨c3, r⟩⟩⟩
  · simp [matchDay] at h
  · simp at hlen
  · simp at hlen
  · simp [matchDay] at h

theorem hourAmpm_len (t : Str) (h : (matchHourAmpm t).isSome = true) :
    t.length ≤ 4 := by
  unfold matchHourAmpm at h
  dsimp only at h
  cases hm : matchHour12 ((lowerStr t).take ((lowerStr t).length - 2)) with
  | none => rw [hm] at h; simp at h
  | some v =>
    have hdp : ((lowerStr t).take ((lowerStr t).length - 2)).length ≤ 2 := by
      rcases hx : (lowerStr t).take ((lowerStr t).length - 2) with
        - | ⟨a, - | ⟨b, - | ⟨c, r⟩⟩⟩
      · simp
      · simp
      · simp
      · rw [hx] at hm
        simp [matchHour12] at hm
    rw [List.length_take] at hdp
    have hlt : (lowerStr t).length = t.length := by simp [lowerStr]
    omega

theorem no2020_hourampm (hp2 : Str) (h : (matchHourAmpm hp2).isSome = true) :
    ¬SubSeg "2020".data hp2 := by
  intro hsub
  have hlen : 4 ≤ hp2.length := subseg_len hsub
  have hlen2 : hp2.length ≤ 4 := hourAmpm_len hp2 h
  have heq : hp2 = "2020".data :=
    (subseg_eq_of_len hsub (by simp only [List.length]; omega)).symm
  rw [heq] at h
  exact absurd h (by decide)

theorem year2020 (y : Str) (h : (matchYear y).isSome = true)
    (hsub : SubSeg "2020".data y) : y = "2020".data := by
  have hylen : y.length = 4 := by
    rcases y with - | ⟨a, - | ⟨b, - | ⟨c, - | ⟨d4, - | ⟨e, r⟩⟩⟩⟩⟩ <;>
      simp [matchYear] at h ⊢
  exact (subseg_eq_of_len hsub (by rw [hylen]; rfl)).symm

theorem strptimeLabelYear_inv (s : Str) (d : DT)
    (h : strptimeLabelYear s = some d) :
    ∃ wd mon dk y hp2, wsTokens s = [wd, mon, dk, y, hp2] ∧
      matchWeekday wd = true ∧ (matchMonth mon).isSome = true ∧
      (matchDay dk).isSome = true ∧ (matchYear y).isSome = true ∧
      (matchHourAmpm hp2).isSome = true := by
  unfold strptimeLabelYear at h
  by_cases hw : noEdgeWs s = true
  · rw [if_pos hw] at h
    rcases hts : wsTokens s with - | ⟨wd, - | ⟨mon, - | ⟨dk, - | ⟨y,
      - | ⟨hp2, - | ⟨x, xs⟩⟩⟩⟩⟩⟩ <;> simp only [hts] at h <;> try cases h
    by_cases hwd : matchWeekday wd = true
    · rw [if_pos hwd] at h
      cases hm : matchMonth mon with
      | none => simp only [hm] at h; cases h
      | some m =>
        cases hd2 : matchDay dk with
        | none => simp only [hm, hd2] at h; cases h
        | some dv =>
          cases hy : matchYear y with
          | none => simp only [hm, hd2, hy] at h; cases h
          | some yv =>
            cases hh : matchHourAmpm hp2 with
            | none => simp only [hm, hd2, hy, hh] at h; cases h
            | some hv =>
              exact ⟨wd, mon, dk, y, hp2, rfl, hwd, by rw [hm]; rfl,
                by rw [hd2]; rfl, by rw [hy]; rfl, by rw [hh]; rfl⟩
    · rw [if_neg hwd] at h
      cases h
  · rw [if_neg hw] at h
    cases h

theorem sub2020_token (s : Str) (d : DT)
    (hc : containsSub "2020".data s = true)
    (h : strptimeLabelYear s = some d) : "2020".data ∈ wsTokens s := by
  obtain ⟨wd, mon, dk, y, hp2, hts, hwd, hmon, hday, hyear, hhp⟩ :=
    strptimeLabelYear_inv s d h
  have hsub : SubSeg "2020".data s := (containsSub_iff _ _).mp hc
  obtain ⟨t, ht, hsubt⟩ := token_of_subseg "2020".data s (by decide)
    (by decide) hsub
  rw [hts] at ht ⊢
  rcases (by simpa using ht :
      t = wd ∨ t = mon ∨ t = dk ∨ t = y ∨ t = hp2) with rfl | rfl | rfl |
    rfl | rfl
  · exact absurd hsubt (no2020_weekday t hwd)
  · exact absurd hsubt (no2020_month t hmon)
  · exact absurd hsubt (no2020_day t hday)
  · have hy := year2020 t hyear hsubt
    subst hy
    simp
  · exact absurd hsubt (no2020_hourampm t hhp)

theorem token2020_sub (s : Str) (h : "2020".data ∈ wsTokens s) :
    containsSub "2020".data s = true :=
  (containsSub_iff _ _).mpr (token_subseg _ _ h)

/-! ## Claims C3, C5, C9, C10 -/

/-- Claim C3, refuted as stated, twice.  First: a cached file named by the
minimum representable timestamp (`0001-01-01_0000.pdf`, which the
explicit-year label format can produce) is NOT selected on an empty store,
because the frontier comparison is strict and `lastRecorded` equals that
minimum — so not every cached timestamp is selected.  Second: the returned
sequence is sorted by cache FILE NAME, not by canonical encoding: with the
non-zero-padded (but parseable) name `2020-3-16_1400.pdf` next to
`2020-03-17_1400.pdf`, the rows come out March 17 before March 16, while
the canonical encodings order them the other way round. -/
theorem counterexample_C3 :
    (getLastUpdate [] = .ok dtMin ∧
     parseFileName "0001-01-01_0000".data = some dtMin ∧
     parse_pdfs ["0001-01-01_0000.pdf".data] (fun _ => []) dtMin = .ok []) ∧
    (parse_pdfs ["2020-3-16_1400.pdf".data, "2020-03-17_1400.pdf".data]
        (fun _ => []) dtMin =
      .ok [mkRow ⟨2020, 3, 17, 14, 0⟩ [], mkRow ⟨2020, 3, 16, 14, 0⟩ []] ∧
     strLtB (fmtFile ⟨2020, 3, 16, 14, 0⟩) (fmtFile ⟨2020, 3, 17, 14, 0⟩) =
       true) :=
  ⟨⟨rfl, rfl, rfl⟩, rfl, by decide⟩

/-- Claim C3 as amended: the selection pass returns only bulletins whose
timestamp is NOT less than or equal to `lastRecorded` (strictly greater);
an empty store yields the minimum representable timestamp as frontier, and
every cached timestamp strictly greater than that minimum is then
selected; the output follows the lexicographically sorted order of the
cache file names (the rows are exactly a filter-map over that sorted
list), which coincides with ascending canonical-encoding order whenever
the cached files carry canonical zero-padded names. -/
theorem claim_C3 :
    (∀ (files : List Str) (txts : Str → Str) (last : DT) (info : List Row)
        (r : Row), parse_pdfs files txts last = .ok info → r ∈ info →
        ∃ f dt, f ∈ files ∧ globPdf f = true ∧
          parseFileName (f.take (f.length - 4)) = some dt ∧
          dtLe dt last = false ∧ r = mkRow dt (txts f)) ∧
    getLastUpdate [] = .ok dtMin ∧
    (∀ (files : List Str) (txts : Str → Str) (info : List Row) (f : Str)
        (dt : DT), parse_pdfs files txts dtMin = .ok info → f ∈ files →
        globPdf f = true →
        parseFileName (f.take (f.length - 4)) = some dt →
        dtLe dt dtMin = false → mkRow dt (txts f) ∈ info) ∧
    (∀ (files : List Str) (txts : Str → Str) (last : DT) (info : List Row),
        parse_pdfs files txts last = .ok info →
        info = (sortStr (files.filter globPdf)).filterMap (fun f =>
          match parseFileName (f.take (f.length - 4)) with
          | none => none
          | some dt => if dtLe dt last = true then none
                       else some (mkRow dt (txts f)))) ∧
    (∀ l : List Str,
        List.Pairwise (fun a b => strLeB a b = true) (sortStr l)) ∧
    (∀ (files : List Str) (txts : Str → Str) (last : DT) (info : List Row),
        parse_pdfs files txts last = .ok info →
        (∀ f ∈ files.filter globPdf, ∃ d : DT,
            f = fmtFile d ++ ".pdf".data ∧
            parseFileName (fmtFile d) = some d) →
        ∃ dts : List DT,
          info = dts.map (fun d => mkRow d (txts (fmtFile d ++ ".pdf".data)))
            ∧
          List.Pairwise (fun a b => strLeB (fmtFile a) (fmtFile b) = true)
            dts) := by
  refine ⟨parse_pdfs_mem_inv, rfl,
    fun files txts info f dt => parse_pdfs_mem files txts dtMin info f dt,
    parse_pdfs_chr, sortStr_pairwise, ?_⟩
  intro files txts last info h hcanon
  obtain ⟨dts, h1, _, h3⟩ := parsePdfsGo_canon txts last _ info h
    (fun f hf => hcanon f ((mem_sortStr f _).mp hf)) (sortStr_pairwise _)
  exact ⟨dts, h1, h3⟩

/-- Witness for C3: the amended selection rule applied to a concrete cache
holding one bulletin past an empty-store frontier. -/
theorem claim_C3_witness :
    mkRow ⟨2020, 4, 1, 9, 30⟩ "v".data ∈
      [mkRow ⟨2020, 4, 1, 9, 30⟩ "v".data] :=
  claim_C3.2.2.1 ["2020-04-01_0930.pdf".data] (fun _ => "v".data) _
    "2020-04-01_0930.pdf".data ⟨2020, 4, 1, 9, 30⟩ rfl
    (List.mem_cons_self _ _) rfl rfl rfl

/-- Claim C5, refuted as stated: `get_last_update` reads the LAST entry of
the datetime column, not its maximum.  On an unsorted column the returned
frontier marker is strictly smaller than another timestamp present in the
column. -/
theorem counterexample_C5 :
    getLastUpdate [["2020-03-16 14:00".data], ["2020-03-15 09:00".data]] =
      .ok ⟨2020, 3, 15, 9, 0⟩ ∧
    parseSheetCell "2020-03-16 14:00".data = some ⟨2020, 3, 16, 14, 0⟩ ∧
    dtLt ⟨2020, 3, 15, 9, 0⟩ ⟨2020, 3, 16, 14, 0⟩ = true :=
  ⟨rfl, rfl, by decide⟩

/-- Claim C5 as amended: the frontier marker is the timestamp parsed from
the column's last row; when the column's parsed timestamps are sorted
ascending (the order the system itself maintains by appending
chronologically) that last entry is the maximum of the column; and the
marker is a strict exclusive lower bound: every processed bulletin has a
timestamp not less than or equal to the marker. -/
theorem claim_C5 :
    (∀ (rows : List (List Str)) (rest : List Str) (cell : Str) (d : DT),
        rows.getLast? = some (cell :: rest) →
        parseSheetCell cell = some d →
        getLastUpdate rows = .ok d) ∧
    (∀ (rows : List (List Str)) (ds : List DT) (d : DT),
        colParsed rows = some ds →
        List.Pairwise (fun a b => dtLe a b = true) ds →
        getLastUpdate rows = .ok d →
        ∀ x ∈ ds, dtLe x d = true) ∧
    (∀ (files : List Str) (txts : Str → Str) (last : DT) (info : List Row)
        (r : Row), parse_pdfs files txts last = .ok info → r ∈ info →
        ∃ f dt, parseFileName (f.take (f.length - 4)) = some dt ∧
          dtLe dt last = false ∧ r = mkRow dt (txts f)) := by
  refine ⟨?_, lastUpdate_is_max, ?_⟩
  · intro rows rest cell d hlast hp
    simp [getLastUpdate, hlast, hp]
  · intro files txts last info r h hr
    obtain ⟨f, dt, _, _, h1, h2, h3⟩ := parse_pdfs_mem_inv files txts last
      info r h hr
    exact ⟨f, dt, h1, h2, h3⟩

/-- Witness for C5: on a sorted two-entry column the marker bounds every
column entry from above. -/
theorem claim_C5_witness :
    dtLe ⟨2020, 3, 15, 9, 0⟩ ⟨2020, 3, 16, 14, 0⟩ = true :=
  claim_C5.2.1 [["2020-03-15 09:00".data], ["2020-03-16 14:00".data]]
    [⟨2020, 3, 15, 9, 0⟩, ⟨2020, 3, 16, 14, 0⟩] ⟨2020, 3, 16, 14, 0⟩ rfl
    (by simp [List.pairwise_cons]; decide) rfl ⟨2020, 3, 15, 9, 0⟩
    (List.mem_cons_self _ _)

/-- Claim C9: when every catalog entry's derived file is already cached,
the store's frontier covers every cached bulletin and the run terminates
in NO_OP: nothing is appended, the run exits successfully with the
no-new-information message. -/
theorem claim_C9 : ∀ (inp : Inputs) (links : SMap) (last : DT),
    get_links inp.anchors = .ok links →
    (∀ p ∈ links, lmem (p.1 ++ ".pdf".data) inp.files0 = true) →
    getLastUpdate inp.colValues = .ok last →
    (∀ f ∈ inp.files0, globPdf f = true →
      ∃ dt, parseFileName (f.take (f.length - 4)) = some dt ∧
        dtLe dt last = true) →
    mainRun inp = ([], .ok "no new information to update") := by
  intro inp links last hg hall hl hskip
  have hd : download_pdfs inp.files0 inp.fetchOk links = .ok inp.files0 :=
    download_all_present inp.fetchOk links inp.files0 hall
  have hp : parse_pdfs inp.files0 inp.pdfText last = .ok [] := by
    rw [parse_pdfs]
    refine parsePdfsGo_skip inp.pdfText last _ ?_
    intro f hf
    have hf2 := List.mem_filter.mp ((mem_sortStr f _).mp hf)
    exact hskip f hf2.1 hf2.2
  simp [mainRun, hg, hd, hl, hp]

/-- Witness for C9: a fully up-to-date run (one listed bulletin, already
cached, already recorded) is a NO_OP. -/
theorem claim_C9_witness :
    mainRun ⟨[("Monday March 16 2020 2PM".data,
               "/files/health/coronavirus/a.pdf".data)],
             ["2020-03-16_1400.pdf".data], fun _ => true,
             [["2020-03-16 14:00".data]], fun _ => []⟩ =
      ([], .ok "no new information to update") :=
  claim_C9 _
    [("2020-03-16_1400".data,
      DOMAIN ++ "/files/health/coronavirus/a.pdf".data)]
    ⟨2020, 3, 16, 14, 0⟩ rfl (by decide) rfl
    (by
      intro f hf _
      have hfe : f = "2020-03-16_1400.pdf".data := by simpa using hf
      subst hfe
      exact ⟨⟨2020, 3, 16, 14, 0⟩, rfl, rfl⟩)

/-- Claim C10: the set of bulletins considered for extraction is exactly
the globbed `*.pdf` cache contents filtered by the frontier —
`parse_pdfs` consults only the cache directory, never the catalog — so a
cached file parsing past the frontier contributes a row even when the
current listing is empty and mentions no bulletin at all. -/
theorem claim_C10 :
    (∀ (files : List Str) (txts : Str → Str) (last : DT) (info : List Row)
        (f : Str) (dt : DT),
        parse_pdfs files txts last = .ok info → f ∈ files →
        globPdf f = true →
        parseFileName (f.take (f.length - 4)) = some dt →
        dtLe dt last = false → mkRow dt (txts f) ∈ info) ∧
    mainRun ⟨[], ["2020-03-20_1400.pdf".data], fun _ => true, [],
        fun _ => "There are 9 confirmed cases".data⟩ =
      ([[mkRow ⟨2020, 3, 20, 14, 0⟩ "There are 9 confirmed cases".data]],
       .ok "updating spreadsheet...") :=
  ⟨parse_pdfs_mem, rfl⟩

/-- Claim C6: for every normalized label the conversion accepts, if the
label contains the four-digit token `2020` (a whitespace-separated token of
the label) it was parsed with the explicit-year format and no year
override was applied; otherwise it was parsed with the year-less format
and the year forced to 2020; either way the result is the zero-padded
`FILE_DT_FMT` rendering.  (The code branches on a `'2020'` substring, but
on any label either format accepts, the substring occurs exactly when the
token does: tokens other than the year are weekday names, month names, a
day of at most two digits, or an hour-meridiem group of at most four
characters that cannot equal `2020`.) -/
theorem claim_C6 : ∀ s ts : Str, parseLabelTs s = some ts →
    ("2020".data ∈ wsTokens s →
      ∃ d, strptimeLabelYear s = some d ∧ ts = fmtFile d) ∧
    ("2020".data ∉ wsTokens s →
      ∃ d d2, strptimeLabelNoYear s = some d ∧
        pyReplaceYear d 2020 = some d2 ∧ d2.year = 2020 ∧
        ts = fmtFile d2) := by
  intro s ts h
  unfold parseLabelTs at h
  by_cases hc : containsSub "2020".data s = true
  · rw [if_pos hc] at h
    obtain ⟨d, hd, hts⟩ := Option.map_eq_some'.mp h
    have htok := sub2020_token s d hc hd
    exact ⟨fun _ => ⟨d, hd, hts.symm⟩, fun hn => absurd htok hn⟩
  · rw [if_neg hc] at h
    cases hn : strptimeLabelNoYear s with
    | none => rw [hn] at h; cases h
    | some d =>
      rw [hn] at h
      obtain ⟨d2, hd2, hts⟩ := Option.map_eq_some'.mp h
      have hyr : d2.year = 2020 := by
        unfold pyReplaceYear mkDatetime at hd2
        split at hd2
        · cases hd2
          rfl
        · cases hd2
      have hnotok : "2020".data ∉ wsTokens s := fun htok =>
        absurd (token2020_sub s htok) hc
      exact ⟨fun htok => absurd htok hnotok,
        fun _ => ⟨d, d2, rfl, hd2, hyr, hts.symm⟩⟩

/-- Witness for C6: the rule applied to the two concrete normalized labels
of the March 16 bulletin, with and without the year token. -/
theorem claim_C6_witness :
    (∃ d, strptimeLabelYear "monday march 16 2020 2pm".data = some d ∧
      "2020-03-16_1400".data = fmtFile d) ∧
    (∃ d d2, strptimeLabelNoYear "monday march 16 2pm".data = some d ∧
      pyReplaceYear d 2020 = some d2 ∧ d2.year = 2020 ∧
      "2020-03-16_1400".data = fmtFile d2) :=
  ⟨(claim_C6 "monday march 16 2020 2pm".data "2020-03-16_1400".data rfl).1
    (by decide),
   (claim_C6 "monday march 16 2pm".data "2020-03-16_1400".data rfl).2
    (by decide)⟩

/-- Witness for C10: a cached bulletin past the frontier contributes its
row. -/
theorem claim_C10_witness :
    mkRow ⟨2020, 3, 20, 14, 0⟩ "w".data ∈
      [mkRow ⟨2020, 3, 20, 14, 0⟩ "w".data] :=
  claim_C10.1 ["2020-03-20_1400.pdf".data] (fun _ => "w".data) dtMin _
    "2020-03-20_1400.pdf".data ⟨2020, 3, 20, 14, 0⟩ rfl
    (List.mem_cons_self _ _) rfl rfl rfl

end Covid







